import Mathlib

/-!
Verification of the `enum_companion` derive macro
(`src/enum_companion_derive/src/lib.rs` and `src/enum_companion/src/lib.rs`).

The macro consumes a struct with named fields and emits:
  * a field enum (one payload-free variant per non-skipped field, in
    declaration order) with a `FIELDS` constant,
  * a value enum (same variants, each carrying the field's declared type),
  * `FromStr` for the field enum (match arms `ident | label => Ok(variant)`
    per non-skipped field, fallback `Err(format!("Invalid field name: {}", s))`),
  * inherent fns `value` / `update` / `fields` / `as_values`,
  * `TryFrom<ValueEnum> for T` and `TryFrom<(FieldEnum, T)> for ValueEnum`
    for each distinct non-skipped field type `T` that does not mention a
    generic parameter of the struct,
  * an `EnumCompanionTrait` impl when the three fn names are the defaults.

Shallow embedding used below:
  * a field enum variant is identified with the declaration index (into the
    full field list) of the field it was generated from;
  * a value enum variant is a pair `(tag, payload)` where `tag` is the field
    enum variant and `payload : α` abstracts the field's runtime value
    (payloads of all fields are drawn from one type `α`, which is faithful
    for every per-variant statement because the generated code never mixes
    payloads across variants);
  * a struct instance is a `List α`, one payload per declared field, in
    declaration order;
  * `syn::Type` is abstracted to the tree `Ty` below, keeping exactly what
    the macro's `GenericVisitor` observes: path segment names (with or
    without a qualified self type), nested type arguments, and reference
    types; the type arguments of all segments of one path are kept in a
    single list, since the visitor treats them uniformly.
-/

namespace EnumCompanion

mutual
/-- Abstraction of `syn::Type` as observed by `GenericVisitor`:
a plain path (segment names plus the nested types appearing as generic
arguments of its segments), a path with a qualified self type
(`<Q as Tr>::A`, for which `qself.is_some()`), or a reference type.
`TyList` is the list of nested type arguments of a path. -/
inductive Ty where
  | path (segs : List String) (args : TyList)
  | qpath (qself : Ty) (segs : List String) (args : TyList)
  | ref (t : Ty)
inductive TyList where
  | nil
  | cons (head : Ty) (tail : TyList)
end

mutual

/-- Decidable structural equality on `Ty` (the macro keys its `unique_types`
map by the rendered type text, which identifies types up to structure). -/
def Ty.decEq : (a b : Ty) → Decidable (a = b)
  | .path s a, .path s' a' =>
    match decEq s s', TyList.decEq a a' with
    | isTrue h1, isTrue h2 => isTrue (by rw [h1, h2])
    | isFalse h1, _ => isFalse (fun h => by cases h; exact h1 rfl)
    | _, isFalse h2 => isFalse (fun h => by cases h; exact h2 rfl)
  | .qpath q s a, .qpath q' s' a' =>
    match Ty.decEq q q', decEq s s', TyList.decEq a a' with
    | isTrue h0, isTrue h1, isTrue h2 => isTrue (by rw [h0, h1, h2])
    | isFalse h0, _, _ => isFalse (fun h => by cases h; exact h0 rfl)
    | _, isFalse h1, _ => isFalse (fun h => by cases h; exact h1 rfl)
    | _, _, isFalse h2 => isFalse (fun h => by cases h; exact h2 rfl)
  | .ref t, .ref t' =>
    match Ty.decEq t t' with
    | isTrue h => isTrue (by rw [h])
    | isFalse h => isFalse (fun hh => by cases hh; exact h rfl)
  | .path _ _, .qpath _ _ _ => isFalse (fun h => by cases h)
  | .path _ _, .ref _ => isFalse (fun h => by cases h)
  | .qpath _ _ _, .path _ _ => isFalse (fun h => by cases h)
  | .qpath _ _ _, .ref _ => isFalse (fun h => by cases h)
  | .ref _, .path _ _ => isFalse (fun h => by cases h)
  | .ref _, .qpath _ _ _ => isFalse (fun h => by cases h)

/-- Decidable structural equality on `TyList`. -/
def TyList.decEq : (a b : TyList) → Decidable (a = b)
  | .nil, .nil => isTrue rfl
  | .cons t ts, .cons u us =>
    match Ty.decEq t u, TyList.decEq ts us with
    | isTrue h1, isTrue h2 => isTrue (by rw [h1, h2])
    | isFalse h1, _ => isFalse (fun h => by cases h; exact h1 rfl)
    | _, isFalse h2 => isFalse (fun h => by cases h; exact h2 rfl)
  | .nil, .cons _ _ => isFalse (fun h => by cases h)
  | .cons _ _, .nil => isFalse (fun h => by cases h)

end

instance : DecidableEq Ty := Ty.decEq

instance : DecidableEq TyList := TyList.decEq

/-- One struct field as parsed by darling (`FieldAttrs` in the source):
its identifier, declared type, optional `#[companion(rename = "...")]`
and `#[companion(skip)]`. -/
structure FieldAttrs where
  ident : String
  ty : Ty
  rename : Option String := none
  skip : Bool := false
deriving DecidableEq

instance : Inhabited FieldAttrs := ⟨⟨"", Ty.path [] .nil, none, false⟩⟩

/-- Derive-macro options (`CompanionOpts` in the source); only the three
configurable fn names matter for the generated semantics, the derive lists
and serde attributes are forwarded verbatim. -/
structure CompanionOpts where
  value_fn : String := "value"
  update_fn : String := "update"
  fields_fn : String := "fields"
  derive_field : List String := []
  derive_value : List String := []
  serde_field : Option String := none
  serde_value : Option String := none
deriving DecidableEq, Repr

/-- Source fn `default_value_fn`. -/
def default_value_fn : String := "value"

/-- Source fn `default_update_fn`. -/
def default_update_fn : String := "update"

/-- Source fn `default_fields_fn`. -/
def default_fields_fn : String := "fields"

/-- Rust's `str::split('_')`, on character lists: splits at every
underscore, keeping empty segments (`"" ↦ [""]`, `"a__b" ↦ ["a","","b"]`). -/
def splitUnderscore : List Char → List (List Char)
  | [] => [[]]
  | c :: cs =>
    if c = '_' then [] :: splitUnderscore cs
    else
      match splitUnderscore cs with
      | [] => [[c]]
      | w :: ws => (c :: w) :: ws

/-- The per-word step of `to_pascal_case`: uppercase the first character,
keep the rest (`word.chars().next().to_uppercase() + rest`). -/
def capitalizeWord : List Char → List Char
  | [] => []
  | c :: cs => c.toUpper :: cs

/-- Source fn `to_pascal_case`: split the identifier on `'_'`,
capitalize each segment's first character, and concatenate. -/
def toPascalCase (s : String) : String :=
  String.mk (List.flatten ((splitUnderscore s.data).map capitalizeWord))

/-- The enum variant name chosen for a field (`variant_name_str` in the
source): the `rename` string verbatim when present, else the PascalCase form
of the field identifier. -/
def labelOf (f : FieldAttrs) : String :=
  (f.rename).getD (toPascalCase f.ident)

/-- The `FromStr` match patterns registered for one non-skipped field
(the `patterns` vector in the source): the raw identifier, plus the variant
label when it differs from the identifier. -/
def keysOf (f : FieldAttrs) : List String :=
  f.ident :: (if labelOf f ≠ f.ident then [labelOf f] else [])

/-- The collection loop of the macro, tracking declaration indices:
indices of the fields that are not `skip`ped, in declaration order.
These indices are exactly the field enum variants (the loop pushes one
variant per retained field). -/
def activeIdxAux : List FieldAttrs → Nat → List Nat
  | [], _ => []
  | f :: fs, i =>
    if f.skip then activeIdxAux fs (i + 1) else i :: activeIdxAux fs (i + 1)

/-- Generated constant `FieldEnum::FIELDS` (also the return value of the generated
`fields_fn`): all field enum variants in declaration order. -/
def activeIdx (fields : List FieldAttrs) : List Nat :=
  activeIdxAux fields 0

/-- The declared type of the field behind a variant. -/
def tyOf (fields : List FieldAttrs) (i : Nat) : Ty :=
  (fields.getD i default).ty

/-- The generated `value` fn: reads the selected field's current payload and
tags it with the field's variant (`FieldEnum::V => ValueEnum::V(self.f.clone())`).
Total on valid variants; `getD` stands in for the match being exhaustive over
the variants that exist. -/
def valueFn [Inhabited α] (state : List α) (i : Nat) : Nat × α :=
  (i, state.getD i default)

/-- The generated `update` fn: writes the payload into the field named by
the variant (`ValueEnum::V(value) => self.f = value`). -/
def updateFn (state : List α) (v : Nat × α) : List α :=
  state.set v.1 v.2

/-- The generated `as_values`:
`Self::fields().iter().map(|&field| self.value(field)).collect()`. -/
def asValues [Inhabited α] (fields : List FieldAttrs) (state : List α) :
    List (Nat × α) :=
  (activeIdx fields).map (valueFn state)

/-- The generated `FromStr::from_str`, as a first-match scan over the match
arms: one arm per non-skipped field in declaration order, whose patterns are
`keysOf`; the fallback arm is `Err(format!("Invalid field name: {}", s))`. -/
def fromStrAux (s : String) : List FieldAttrs → Nat → Except String Nat
  | [], _ => .error ("Invalid field name: " ++ s)
  | f :: fs, i =>
    if f.skip then fromStrAux s fs (i + 1)
    else if s ∈ keysOf f then .ok i
    else fromStrAux s fs (i + 1)

/-- Generated `FieldEnum::from_str`. -/
def fromStr (fields : List FieldAttrs) (s : String) : Except String Nat :=
  fromStrAux s fields 0

mutual

/-- Source fn `type_contains_generic`: the visitor marks a type as
generic when some type path with no qualified self type has its LAST segment
named like a generic parameter; otherwise it recurses into the qualified
self type and the nested type arguments (and through references). -/
def typeContainsGeneric (gens : List String) : Ty → Bool
  | .path segs args =>
    (match segs.getLast? with
     | some s => gens.contains s
     | none => false)
    || tyListContainsGeneric gens args
  | .qpath q _segs args =>
    typeContainsGeneric gens q || tyListContainsGeneric gens args
  | .ref t => typeContainsGeneric gens t

/-- Source fn `type_contains_generic` mapped over the nested type arguments. -/
def tyListContainsGeneric (gens : List String) : TyList → Bool
  | .nil => false
  | .cons t ts => typeContainsGeneric gens t || tyListContainsGeneric gens ts

end

mutual

/-- The generic-reference check as the specification words it
("tests each path segment of every type path against the generic-parameter
name set"): EVERY segment name of every path is tested, not only the last. -/
def specTypeContainsGeneric (gens : List String) : Ty → Bool
  | .path segs args =>
    segs.any (fun s => gens.contains s)
    || specTyListContainsGeneric gens args
  | .qpath q segs args =>
    segs.any (fun s => gens.contains s)
    || specTypeContainsGeneric gens q
    || specTyListContainsGeneric gens args
  | .ref t => specTypeContainsGeneric gens t

/-- The specification's generic-reference check over nested arguments. -/
def specTyListContainsGeneric (gens : List String) : TyList → Bool
  | .nil => false
  | .cons t ts =>
    specTypeContainsGeneric gens t || specTyListContainsGeneric gens ts

end

/-- The declared types of the non-skipped fields (the `field_types` vector);
the key set of the `unique_types` map is exactly the set of distinct
elements of this list. -/
def activeTys (fields : List FieldAttrs) : List Ty :=
  (activeIdx fields).map (tyOf fields)

/-- Whether a `TryFrom` conversion pair is generated for target type `ty`:
`ty` must be the declared type of some non-skipped field (a `unique_types`
group exists) and must not contain a generic parameter (the `filter_map`
guard in `try_from_impls` / `try_into_impls`). -/
def hasConversion (fields : List FieldAttrs) (gens : List String) (ty : Ty) :
    Bool :=
  decide (ty ∈ activeTys fields) && !typeContainsGeneric gens ty

/-- The variants of the `unique_types` group for type `ty`: the non-skipped
fields whose declared type equals `ty` (textual equality of the type). -/
def variantsOfTy (fields : List FieldAttrs) (ty : Ty) : List Nat :=
  (activeIdx fields).filter (fun i => tyOf fields i = ty)

/-- The generated `TryFrom<ValueEnum> for ty`: one `Ok(val)` arm per variant
of `ty`'s group, fallback `Err(value)` returning the input unchanged. -/
def tryFromValue (fields : List FieldAttrs) (ty : Ty) (v : Nat × α) :
    Except (Nat × α) α :=
  if v.1 ∈ variantsOfTy fields ty then .ok v.2 else .error v

/-- The generated `TryFrom<(FieldEnum, ty)> for ValueEnum`: one
`Ok(ValueEnum::V(value))` arm per variant of `ty`'s group, fallback
`Err(field)` returning the field tag. -/
def tryIntoValue (fields : List FieldAttrs) (ty : Ty) (f : Nat) (raw : α) :
    Except Nat (Nat × α) :=
  if f ∈ variantsOfTy fields ty then .ok (f, raw) else .error f

/-- The four methods of an `EnumCompanionTrait` impl. -/
structure TraitMethods (α : Type) where
  tvalue : List α → Nat → Nat × α
  tupdate : List α → Nat × α → List α
  tfields : List Nat
  tas_values : List α → List (Nat × α)

/-- The conditionally generated `EnumCompanionTrait` impl: emitted exactly
when the three configured fn names are the literals `"value"`, `"update"`,
`"fields"`; each trait method delegates to the inherent operation. -/
def traitImpl (α : Type) [Inhabited α] (o : CompanionOpts)
    (fields : List FieldAttrs) : Option (TraitMethods α) :=
  if o.value_fn = "value" ∧ o.update_fn = "update" ∧ o.fields_fn = "fields" then
    some ⟨valueFn, updateFn, activeIdx fields, asValues fields⟩
  else
    none

/-- Spec-side description of a snake_case identifier: the identifier whose
underscore-delimited segments are exactly the given (underscore-free)
segments, joined by single underscores. Used to state the naming claim. -/
def snakeJoin : List (List Char) → List Char
  | [] => []
  | [w] => w
  | w :: ws => w ++ '_' :: snakeJoin ws

/-! ### Example schemas used for witnesses and counterexamples -/

/-- Concrete type `u32`. -/
def tyU32 : Ty := .path ["u32"] .nil

/-- Concrete type `String`. -/
def tyString : Ty := .path ["String"] .nil

/-- Concrete type `T::Assoc`: a two-segment type path whose first segment is
the generic parameter `T` and whose last segment is an associated type. -/
def tyAssoc : Ty := .path ["T", "Assoc"] .nil

/-- Example schema: a struct with a skipped field, a renamed field, and two
fields sharing the type `u32`. -/
def exampleFields : List FieldAttrs :=
  [⟨"name", tyString, none, false⟩,
   ⟨"distance", tyU32, none, false⟩,
   ⟨"password_hash", tyString, none, true⟩,
   ⟨"speed", tyU32, none, false⟩,
   ⟨"field_two", tyU32, some "Field2", false⟩,
   ⟨"is_verified", .path ["bool"] .nil, none, false⟩]

/-- Schema with a cross-field key collision: the first field is renamed to
`"b"`, which is also the second field's raw identifier. -/
def collisionFields : List FieldAttrs :=
  [⟨"a", tyU32, some "b", false⟩, ⟨"b", tyU32, none, false⟩]

/-- Schema with a field whose type mentions the generic parameter `T` only
in a non-final path segment (`data: T::Assoc`). -/
def genericFields : List FieldAttrs :=
  [⟨"name", tyString, none, false⟩, ⟨"data", tyAssoc, none, false⟩]

/-! ### Helper lemmas -/

theorem activeIdxAux_cons_skip {f : FieldAttrs} (hf : f.skip = true)
    (fs : List FieldAttrs) (n : Nat) :
    activeIdxAux (f :: fs) n = activeIdxAux fs (n + 1) := by
  simp only [activeIdxAux]; rw [if_pos hf]

theorem activeIdxAux_cons_active {f : FieldAttrs} (hf : f.skip = false)
    (fs : List FieldAttrs) (n : Nat) :
    activeIdxAux (f :: fs) n = n :: activeIdxAux fs (n + 1) := by
  simp only [activeIdxAux]
  rw [if_neg (by rw [hf]; exact Bool.false_ne_true)]

theorem fromStrAux_cons_skip (s : String) {f : FieldAttrs}
    (hf : f.skip = true) (fs : List FieldAttrs) (n : Nat) :
    fromStrAux s (f :: fs) n = fromStrAux s fs (n + 1) := by
  simp only [fromStrAux]; rw [if_pos hf]

theorem fromStrAux_cons_hit (s : String) {f : FieldAttrs}
    (hf : f.skip = false) (hk : s ∈ keysOf f) (fs : List FieldAttrs)
    (n : Nat) :
    fromStrAux s (f :: fs) n = .ok n := by
  simp only [fromStrAux]
  rw [if_neg (by rw [hf]; exact Bool.false_ne_true), if_pos hk]

theorem fromStrAux_cons_miss (s : String) {f : FieldAttrs}
    (hf : f.skip = false) (hk : s ∉ keysOf f) (fs : List FieldAttrs)
    (n : Nat) :
    fromStrAux s (f :: fs) n = fromStrAux s fs (n + 1) := by
  simp only [fromStrAux]
  rw [if_neg (by rw [hf]; exact Bool.false_ne_true), if_neg hk]

theorem mem_activeIdxAux {fs : List FieldAttrs} {n i : Nat} :
    i ∈ activeIdxAux fs n ↔
      ∃ j, j < fs.length ∧ i = n + j ∧ (fs.getD j default).skip = false := by
  induction fs generalizing n with
  | nil => simp [activeIdxAux]
  | cons f fs ih =>
    cases hf : f.skip with
    | true =>
      rw [activeIdxAux_cons_skip hf, ih]
      constructor
      · rintro ⟨j, hj, hij, hsk⟩
        refine ⟨j + 1, by rw [List.length_cons]; omega, by omega, ?_⟩
        rw [List.getD_cons_succ]; exact hsk
      · rintro ⟨j, hj, hij, hsk⟩
        cases j with
        | zero => rw [List.getD_cons_zero, hf] at hsk; cases hsk
        | succ j =>
          rw [List.getD_cons_succ] at hsk
          exact ⟨j, by rw [List.length_cons] at hj; omega, by omega, hsk⟩
    | false =>
      rw [activeIdxAux_cons_active hf, List.mem_cons, ih]
      constructor
      · rintro (rfl | ⟨j, hj, hij, hsk⟩)
        · exact ⟨0, by rw [List.length_cons]; omega, by omega,
            by rw [List.getD_cons_zero]; exact hf⟩
        · refine ⟨j + 1, by rw [List.length_cons]; omega, by omega, ?_⟩
          rw [List.getD_cons_succ]; exact hsk
      · rintro ⟨j, hj, hij, hsk⟩
        cases j with
        | zero => left; omega
        | succ j =>
          rw [List.getD_cons_succ] at hsk
          right
          exact ⟨j, by rw [List.length_cons] at hj; omega, by omega, hsk⟩

theorem mem_activeIdx {fields : List FieldAttrs} {i : Nat} :
    i ∈ activeIdx fields ↔
      i < fields.length ∧ (fields.getD i default).skip = false := by
  rw [activeIdx, mem_activeIdxAux]
  constructor
  · rintro ⟨j, hj, hij, hsk⟩
    have hji : i = j := by omega
    rw [hji]; exact ⟨hj, hsk⟩
  · rintro ⟨hi, hsk⟩
    exact ⟨i, hi, by omega, hsk⟩

theorem le_of_mem_activeIdxAux {fs : List FieldAttrs} {n i : Nat}
    (h : i ∈ activeIdxAux fs n) : n ≤ i := by
  obtain ⟨j, -, hij, -⟩ := mem_activeIdxAux.mp h
  omega

theorem pairwise_activeIdxAux (fs : List FieldAttrs) (n : Nat) :
    (activeIdxAux fs n).Pairwise (· < ·) := by
  induction fs generalizing n with
  | nil => simp [activeIdxAux]
  | cons f fs ih =>
    cases hf : f.skip with
    | true => rw [activeIdxAux_cons_skip hf]; exact ih (n + 1)
    | false =>
      rw [activeIdxAux_cons_active hf]
      exact List.Pairwise.cons
        (fun b hb => by have := le_of_mem_activeIdxAux hb; omega) (ih (n + 1))

theorem pairwise_activeIdx (fields : List FieldAttrs) :
    (activeIdx fields).Pairwise (· < ·) :=
  pairwise_activeIdxAux fields 0

theorem activeIdxAux_succ (fs : List FieldAttrs) (n : Nat) :
    activeIdxAux fs (n + 1) = (activeIdxAux fs n).map (· + 1) := by
  induction fs generalizing n with
  | nil => simp [activeIdxAux]
  | cons f fs ih =>
    cases hf : f.skip with
    | true =>
      rw [activeIdxAux_cons_skip hf, activeIdxAux_cons_skip hf, ih (n + 1)]
    | false =>
      rw [activeIdxAux_cons_active hf, activeIdxAux_cons_active hf,
        List.map_cons, ih (n + 1)]

theorem fromStrAux_succ (s : String) (fs : List FieldAttrs) (n : Nat) :
    fromStrAux s fs (n + 1) = (fromStrAux s fs n).map (· + 1) := by
  induction fs generalizing n with
  | nil => rfl
  | cons f fs ih =>
    cases hf : f.skip with
    | true =>
      rw [fromStrAux_cons_skip s hf, fromStrAux_cons_skip s hf, ih (n + 1)]
    | false =>
      by_cases hk : s ∈ keysOf f
      · rw [fromStrAux_cons_hit s hf hk, fromStrAux_cons_hit s hf hk]; rfl
      · rw [fromStrAux_cons_miss s hf hk, fromStrAux_cons_miss s hf hk,
          ih (n + 1)]

theorem fromStr_eq_find (fields : List FieldAttrs) (s : String) :
    fromStr fields s =
      match (activeIdx fields).find?
          (fun j => decide (s ∈ keysOf (fields.getD j default))) with
      | some j => .ok j
      | none => .error ("Invalid field name: " ++ s) := by
  rw [fromStr, activeIdx]
  induction fields with
  | nil => simp [fromStrAux, activeIdxAux]
  | cons f fs ih =>
    cases hf : f.skip with
    | true =>
      rw [fromStrAux_cons_skip s hf, activeIdxAux_cons_skip hf,
        fromStrAux_succ, ih, activeIdxAux_succ, List.find?_map]
      simp only [Function.comp_def, List.getD_cons_succ]
      cases hfind : (activeIdxAux fs 0).find?
          (fun j => decide (s ∈ keysOf (fs.getD j default))) with
      | none => rfl
      | some j => rfl
    | false =>
      by_cases hk : s ∈ keysOf f
      · rw [fromStrAux_cons_hit s hf hk, activeIdxAux_cons_active hf,
          List.find?_cons_of_pos _ (by rw [List.getD_cons_zero]; exact decide_eq_true hk)]
      · rw [fromStrAux_cons_miss s hf hk, activeIdxAux_cons_active hf,
          List.find?_cons_of_neg _ (by rw [List.getD_cons_zero]; simp [hk]),
          fromStrAux_succ, ih, activeIdxAux_succ, List.find?_map]
        simp only [Function.comp_def, List.getD_cons_succ]
        cases hfind : (activeIdxAux fs 0).find?
            (fun j => decide (s ∈ keysOf (fs.getD j default))) with
        | none => rfl
        | some j => rfl

theorem find?_pairwise_eq_some {l : List Nat} {P : Nat → Bool} {i : Nat}
    (hp : l.Pairwise (· < ·)) (hi : i ∈ l) (hPi : P i = true)
    (hmin : ∀ j ∈ l, j < i → P j = false) : l.find? P = some i := by
  induction l with
  | nil => cases hi
  | cons a l ih =>
    rcases List.pairwise_cons.mp hp with ⟨ha, hp'⟩
    rcases List.mem_cons.mp hi with rfl | hi'
    · exact List.find?_cons_of_pos _ hPi
    · have hai : a < i := ha i hi'
      have hPa : P a = false := hmin a (List.mem_cons_self a l) hai
      rw [List.find?_cons_of_neg _ (by rw [hPa]; exact Bool.false_ne_true)]
      exact ih hp' hi' (fun j hj hlt => hmin j (List.mem_cons_of_mem a hj) hlt)

theorem set_getD_self {l : List α} {i : Nat} {d : α} (h : i < l.length) :
    l.set i (l.getD i d) = l := by
  induction l generalizing i with
  | nil => simp at h
  | cons a l ih =>
    cases i with
    | zero => rfl
    | succ i =>
      rw [List.length_cons] at h
      rw [List.getD_cons_succ, List.set_cons_succ, ih (by omega)]

theorem getD_set_self {l : List α} {i : Nat} {a d : α} (h : i < l.length) :
    (l.set i a).getD i d = a := by
  rw [List.getD_eq_getElem?_getD, List.getElem?_set_self h]
  rfl

theorem getD_set_ne {l : List α} {i j : Nat} {a d : α} (h : i ≠ j) :
    (l.set i a).getD j d = l.getD j d := by
  rw [List.getD_eq_getElem?_getD, List.getElem?_set_ne h,
    ← List.getD_eq_getElem?_getD]

theorem asValues_map_fst [Inhabited α] (fields : List FieldAttrs)
    (state : List α) :
    (asValues fields state).map Prod.fst = activeIdx fields := by
  simp [asValues, valueFn, List.map_map, Function.comp_def]

theorem mem_variantsOfTy {fields : List FieldAttrs} {ty : Ty} {i : Nat} :
    i ∈ variantsOfTy fields ty ↔
      i ∈ activeIdx fields ∧ tyOf fields i = ty := by
  simp [variantsOfTy, List.mem_filter]

theorem mem_keysOf_self_ident {f : FieldAttrs} : f.ident ∈ keysOf f :=
  List.mem_cons_self _ _

theorem mem_keysOf_self_label {f : FieldAttrs} : labelOf f ∈ keysOf f := by
  by_cases h : labelOf f = f.ident
  · rw [keysOf, if_neg (by simpa using h)]
    exact h ▸ List.mem_cons_self _ _
  · rw [keysOf, if_pos h]
    exact List.mem_cons_of_mem _ (List.mem_cons_self _ _)

theorem splitUnderscore_no_underscore {w : List Char} (h : '_' ∉ w) :
    splitUnderscore w = [w] := by
  induction w with
  | nil => rfl
  | cons c cs ih =>
    have hc : ¬(c = '_') := fun hc => h (hc ▸ List.mem_cons_self c cs)
    have hcs : '_' ∉ cs := fun hin => h (List.mem_cons_of_mem c hin)
    simp only [splitUnderscore]
    rw [if_neg hc, ih hcs]

theorem splitUnderscore_word_append {w rest : List Char} (h : '_' ∉ w) :
    splitUnderscore (w ++ '_' :: rest) = w :: splitUnderscore rest := by
  induction w with
  | nil =>
    simp [splitUnderscore]
  | cons c cs ih =>
    have hc : ¬(c = '_') := fun hc => h (hc ▸ List.mem_cons_self c cs)
    have hcs : '_' ∉ cs := fun hin => h (List.mem_cons_of_mem c hin)
    simp only [List.cons_append, splitUnderscore, List.append_eq]
    rw [if_neg hc, ih hcs]

theorem splitUnderscore_snakeJoin {ws : List (List Char)}
    (h : ∀ w ∈ ws, '_' ∉ w) (hne : ws ≠ []) :
    splitUnderscore (snakeJoin ws) = ws := by
  induction ws with
  | nil => exact absurd rfl hne
  | cons w ws ih =>
    cases ws with
    | nil =>
      exact splitUnderscore_no_underscore (h w (List.mem_cons_self w []))
    | cons w2 ws2 =>
      have hjoin : snakeJoin (w :: w2 :: ws2) = w ++ '_' :: snakeJoin (w2 :: ws2) := rfl
      rw [hjoin,
        splitUnderscore_word_append (h w (List.mem_cons_self w _)),
        ih (fun u hu => h u (List.mem_cons_of_mem w hu)) (by simp)]

/-! ### Claim theorems -/

/-- C1. Round trip: for every record instance (one payload per declared
field) and every non-skipped field, `update(value(field))` leaves all of the
record's field values unchanged. -/
theorem claim_c1_round_trip {α : Type} [Inhabited α]
    (fields : List FieldAttrs) (state : List α) (i : Nat)
    (hi : i ∈ activeIdx fields) (hlen : state.length = fields.length) :
    updateFn state (valueFn state i) = state := by
  have hil : i < state.length := by
    have := (mem_activeIdx.mp hi).1
    omega
  exact set_getD_self hil

/-- Witness for C1: the round trip on a concrete instance of the example
schema, updating via the value read from field 3 (`speed`). -/
theorem claim_c1_round_trip_witness :
    updateFn ([10, 20, 30, 40, 50, 60] : List Nat)
        (valueFn ([10, 20, 30, 40, 50, 60] : List Nat) 3)
      = [10, 20, 30, 40, 50, 60] :=
  claim_c1_round_trip exampleFields _ 3 (by decide) (by decide)

/-- C8. Update frame effect: `update` writes the wrapped payload into
exactly the field named by the variant, discarding the old value, and leaves
every other field (and the record's length) unchanged. -/
theorem claim_c8_update_frame {α : Type} [Inhabited α]
    (fields : List FieldAttrs) (state : List α) (i j : Nat) (p : α)
    (hi : i ∈ activeIdx fields) (hlen : state.length = fields.length)
    (hj : j < state.length) (hne : j ≠ i) :
    (updateFn state (i, p)).getD i default = p
    ∧ (updateFn state (i, p)).getD j default = state.getD j default
    ∧ (updateFn state (i, p)).length = state.length := by
  have hil : i < state.length := by
    have := (mem_activeIdx.mp hi).1
    omega
  exact ⟨getD_set_self hil, getD_set_ne (Ne.symm hne), by simp [updateFn]⟩

/-- Witness for C8: updating field 1 (`distance`) of a concrete instance
writes the new payload there and leaves field 0 (`name`) alone. -/
theorem claim_c8_update_frame_witness :
    (updateFn ([10, 20, 30, 40, 50, 60] : List Nat) (1, 99)).getD 1 default = 99
    ∧ (updateFn ([10, 20, 30, 40, 50, 60] : List Nat) (1, 99)).getD 0 default
        = ([10, 20, 30, 40, 50, 60] : List Nat).getD 0 default
    ∧ (updateFn ([10, 20, 30, 40, 50, 60] : List Nat) (1, 99)).length
        = ([10, 20, 30, 40, 50, 60] : List Nat).length :=
  claim_c8_update_frame exampleFields _ 1 0 99 (by decide) (by decide)
    (by decide) (by decide)

/-- C2 (amended). Name resolution: for every non-skipped field none of whose
two keys is also a key of an earlier-declared non-skipped field, resolving
the raw identifier and resolving the derived/renamed label both succeed and
both yield that field's variant (hence the same variant); resolving a string
that is no non-skipped field's key fails with the error carrying the
offending string. -/
theorem claim_c2_name_resolution (fields : List FieldAttrs) (i : Nat)
    (s : String) (hi : i < fields.length)
    (hskip : (fields.getD i default).skip = false)
    (hnc : ∀ j < i, (fields.getD j default).skip = false →
      (fields.getD i default).ident ∉ keysOf (fields.getD j default) ∧
      labelOf (fields.getD i default) ∉ keysOf (fields.getD j default))
    (hs : ∀ j < fields.length, (fields.getD j default).skip = false →
      s ∉ keysOf (fields.getD j default)) :
    fromStr fields ((fields.getD i default).ident) = .ok i
    ∧ fromStr fields (labelOf (fields.getD i default)) = .ok i
    ∧ fromStr fields s = .error ("Invalid field name: " ++ s) := by
  have resolve_key : ∀ t : String, t ∈ keysOf (fields.getD i default) →
      (∀ j < i, (fields.getD j default).skip = false →
        t ∉ keysOf (fields.getD j default)) →
      fromStr fields t = .ok i := by
    intro t ht hno
    rw [fromStr_eq_find,
      find?_pairwise_eq_some (pairwise_activeIdx fields)
        (mem_activeIdx.mpr ⟨hi, hskip⟩) (decide_eq_true ht)
        (fun j hjmem hlt => by
          have hm := mem_activeIdx.mp hjmem
          exact decide_eq_false (hno j hlt hm.2))]
  refine ⟨resolve_key _ mem_keysOf_self_ident (fun j hj hsk => (hnc j hj hsk).1),
    resolve_key _ mem_keysOf_self_label (fun j hj hsk => (hnc j hj hsk).2), ?_⟩
  rw [fromStr_eq_find,
    List.find?_eq_none.mpr (fun x hx hdec => by
      have hm := mem_activeIdx.mp hx
      exact hs x hm.1 hm.2 (of_decide_eq_true hdec))]

/-- Witness for C2: in the example schema, field 4 (`field_two`, renamed
`Field2`) resolves from both keys, and `FieldTwo` is rejected with the
fallback error. -/
theorem claim_c2_name_resolution_witness :
    fromStr exampleFields ((exampleFields.getD 4 default).ident) = .ok 4
    ∧ fromStr exampleFields (labelOf (exampleFields.getD 4 default)) = .ok 4
    ∧ fromStr exampleFields "FieldTwo"
        = .error ("Invalid field name: " ++ "FieldTwo") :=
  claim_c2_name_resolution exampleFields 4 "FieldTwo" (by decide) (by decide)
    (by decide) (by decide)

/-- C2 counterexample: in `collisionFields` the second field (`b`) is not
skipped, yet resolving its raw identifier `"b"` yields variant 0 (the
first field, renamed to `"b"`) while resolving its label `"B"` yields
variant 1 — the two resolutions do not yield the same variant, refuting the
claim as stated. -/
theorem claim_c2_counterexample :
    (collisionFields.getD 1 default).skip = false
    ∧ fromStr collisionFields ((collisionFields.getD 1 default).ident) = .ok 0
    ∧ fromStr collisionFields (labelOf (collisionFields.getD 1 default)) = .ok 1
    ∧ (0 : Nat) ≠ 1 :=
  ⟨rfl, rfl, rfl, by decide⟩

/-- C3. Value-to-raw conversion: for every target type with a generated
conversion and every value variant, the conversion succeeds with the
unwrapped payload exactly when the variant's field has that declared type
(variants of other fields sharing the type included); otherwise it fails and
the error payload is the original value variant, unchanged. -/
theorem claim_c3_value_to_raw {α : Type} (fields : List FieldAttrs)
    (gens : List String) (ty : Ty) (v : Nat × α)
    (hconv : hasConversion fields gens ty = true)
    (hv : v.1 ∈ activeIdx fields) :
    (tyOf fields v.1 = ty → tryFromValue fields ty v = .ok v.2)
    ∧ (tyOf fields v.1 ≠ ty → tryFromValue fields ty v = .error v) := by
  constructor
  · intro h
    unfold tryFromValue
    rw [if_pos (mem_variantsOfTy.mpr ⟨hv, h⟩)]
  · intro h
    unfold tryFromValue
    rw [if_neg (fun hmem => h (mem_variantsOfTy.mp hmem).2)]

/-- Witness for C3: converting the value variant of field 1 (`distance`,
declared `u32`) into `u32` succeeds with the payload. -/
theorem claim_c3_value_to_raw_witness :
    (tyOf exampleFields 1 = tyU32 →
      tryFromValue exampleFields tyU32 ((1, 42) : Nat × Nat) = .ok 42)
    ∧ (tyOf exampleFields 1 ≠ tyU32 →
      tryFromValue exampleFields tyU32 ((1, 42) : Nat × Nat) = .error (1, 42)) :=
  claim_c3_value_to_raw exampleFields [] tyU32 (1, 42) (by decide) (by decide)

/-- C4. Field-plus-raw to value conversion: for every field variant and raw
value of a type with a generated conversion, the conversion succeeds and
wraps the raw value into the matching value variant exactly when that field's
declared type is the target type; otherwise it fails and the error payload is
the field variant that was passed in. -/
theorem claim_c4_field_raw_to_value {α : Type} (fields : List FieldAttrs)
    (gens : List String) (ty : Ty) (f : Nat) (raw : α)
    (hconv : hasConversion fields gens ty = true)
    (hf : f ∈ activeIdx fields) :
    (tyOf fields f = ty → tryIntoValue fields ty f raw = .ok (f, raw))
    ∧ (tyOf fields f ≠ ty → tryIntoValue fields ty f raw = .error f) := by
  constructor
  · intro h
    unfold tryIntoValue
    rw [if_pos (mem_variantsOfTy.mpr ⟨hf, h⟩)]
  · intro h
    unfold tryIntoValue
    rw [if_neg (fun hmem => h (mem_variantsOfTy.mp hmem).2)]

/-- Witness for C4: wrapping a raw `String` payload for field 0 (`name`)
succeeds, keyed by the type `String`. -/
theorem claim_c4_field_raw_to_value_witness :
    (tyOf exampleFields 0 = tyString →
      tryIntoValue exampleFields tyString 0 (7 : Nat) = .ok (0, 7))
    ∧ (tyOf exampleFields 0 ≠ tyString →
      tryIntoValue exampleFields tyString 0 (7 : Nat) = .error 0) :=
  claim_c4_field_raw_to_value exampleFields [] tyString 0 7 (by decide)
    (by decide)

/-- C5 (amended). Generic-parameter exclusion: for a non-skipped field with
declared type `ty`, a conversion pair is generated for `ty` exactly when
`type_contains_generic` rejects it, where that check tests only the LAST
path segment of each type path without a qualified self type against the
generic-parameter name set (recursing into qualified self types and nested
type arguments); the field's enumeration membership and its
accessor/mutator behaviour are unaffected by the check. -/
theorem claim_c5_generic_exclusion {α : Type} [Inhabited α]
    (fields : List FieldAttrs) (gens : List String) (i : Nat) (ty : Ty)
    (state : List α) (hi : i < fields.length)
    (hskip : (fields.getD i default).skip = false)
    (hty : tyOf fields i = ty) (hlen : state.length = fields.length) :
    (hasConversion fields gens ty = true ↔
      typeContainsGeneric gens ty = false)
    ∧ i ∈ activeIdx fields
    ∧ updateFn state (valueFn state i) = state := by
  have him : i ∈ activeIdx fields := mem_activeIdx.mpr ⟨hi, hskip⟩
  have hmem : ty ∈ activeTys fields := List.mem_map.mpr ⟨i, him, hty⟩
  have hil : i < state.length := by omega
  refine ⟨?_, him, set_getD_self hil⟩
  constructor
  · intro h
    cases htc : typeContainsGeneric gens ty with
    | false => rfl
    | true =>
      unfold hasConversion at h
      rw [htc] at h
      simp at h
  · intro h
    unfold hasConversion
    rw [h]
    simp [hmem]

/-- Witness for C5 at a concrete schema: the `name : String` field of
`genericFields` gets a conversion, stays enumerated, and round-trips. -/
theorem claim_c5_generic_exclusion_witness :
    (hasConversion genericFields ["T"] tyString = true ↔
      typeContainsGeneric ["T"] tyString = false)
    ∧ (0 : Nat) ∈ activeIdx genericFields
    ∧ updateFn ([10, 20] : List Nat) (valueFn ([10, 20] : List Nat) 0)
        = [10, 20] :=
  claim_c5_generic_exclusion genericFields ["T"] 0 tyString [10, 20]
    (by decide) (by decide) (by decide) (by decide)

/-- C5 counterexample: the field `data : T::Assoc` of `genericFields`
references the generic parameter `T` under the claim's "each path segment"
walk, yet the code's last-segment check misses it, so a conversion IS
generated for `T::Assoc` — refuting the claimed equivalence between
conversion generation and the per-segment check. -/
theorem claim_c5_counterexample :
    specTypeContainsGeneric ["T"] tyAssoc = true
    ∧ typeContainsGeneric ["T"] tyAssoc = false
    ∧ hasConversion genericFields ["T"] tyAssoc = true
    ∧ tyOf genericFields 1 = tyAssoc
    ∧ (genericFields.getD 1 default).skip = false := by
  refine ⟨rfl, rfl, ?_, rfl, rfl⟩
  decide

/-- C6. Order preservation and skip exclusion: membership in the generated
`FIELDS` list is exactly being a non-skipped declared field, the list is
strictly increasing in declaration order, a skipped field contributes no
variant to it nor to the tags of `as_values`, and name resolution only ever
returns a non-skipped field's variant. -/
theorem claim_c6_order_skip {α : Type} [Inhabited α]
    (fields : List FieldAttrs) (state : List α) (s : String) (i j k : Nat) :
    (k ∈ activeIdx fields ↔
      k < fields.length ∧ (fields.getD k default).skip = false)
    ∧ (activeIdx fields).Pairwise (· < ·)
    ∧ ((fields.getD j default).skip = true → j ∉ activeIdx fields)
    ∧ (asValues fields state).map Prod.fst = activeIdx fields
    ∧ (fromStr fields s = .ok i →
        i ∈ activeIdx fields ∧ (fields.getD i default).skip = false) := by
  refine ⟨mem_activeIdx, pairwise_activeIdx fields, ?_,
    asValues_map_fst fields state, ?_⟩
  · intro hsk hmem
    have hne := (mem_activeIdx.mp hmem).2
    rw [hsk] at hne
    cases hne
  · intro h
    rw [fromStr_eq_find] at h
    cases hfind : (activeIdx fields).find?
        (fun m => decide (s ∈ keysOf (fields.getD m default))) with
    | none => rw [hfind] at h; cases h
    | some m =>
      rw [hfind] at h
      injection h with hmi
      subst hmi
      have hmem := List.mem_of_find?_eq_some hfind
      exact ⟨hmem, (mem_activeIdx.mp hmem).2⟩

/-- Witness for C6 on the example schema (skipped field 2, resolved string
`distance`). -/
theorem claim_c6_order_skip_witness :
    ((3 : Nat) ∈ activeIdx exampleFields ↔
      3 < exampleFields.length ∧ (exampleFields.getD 3 default).skip = false)
    ∧ (activeIdx exampleFields).Pairwise (· < ·)
    ∧ ((exampleFields.getD 2 default).skip = true →
        2 ∉ activeIdx exampleFields)
    ∧ (asValues exampleFields ([10, 20, 30, 40, 50, 60] : List Nat)).map
        Prod.fst = activeIdx exampleFields
    ∧ (fromStr exampleFields "distance" = .ok 1 →
        (1 : Nat) ∈ activeIdx exampleFields
        ∧ (exampleFields.getD 1 default).skip = false) :=
  claim_c6_order_skip exampleFields [10, 20, 30, 40, 50, 60] "distance" 1 2 3

/-- C7. Label derivation: a present rename is used verbatim as the variant
label; otherwise the label is the PascalCase form of the identifier, which
on an identifier assembled from underscore-free segments is exactly the
concatenation of the segments with their first characters capitalized
(`is_verified` becomes `IsVerified`). -/
theorem claim_c7_label_derivation (f : FieldAttrs) (r : String)
    (ws : List (List Char)) (hw : ∀ w ∈ ws, '_' ∉ w) :
    (f.rename = some r → labelOf f = r)
    ∧ (f.rename = none → labelOf f = toPascalCase f.ident)
    ∧ toPascalCase (String.mk (snakeJoin ws))
        = String.mk (List.flatten (ws.map capitalizeWord))
    ∧ toPascalCase "is_verified" = "IsVerified" := by
  refine ⟨fun h => by unfold labelOf; rw [h]; rfl,
    fun h => by unfold labelOf; rw [h]; rfl, ?_, by decide⟩
  by_cases hne : ws = []
  · subst hne; rfl
  · unfold toPascalCase
    have hdata : (String.mk (snakeJoin ws)).data = snakeJoin ws := rfl
    rw [hdata, splitUnderscore_snakeJoin hw hne]

/-- Witness for C7 at the renamed field `field_two` and the segment list of
`is_verified`. -/
theorem claim_c7_label_derivation_witness :
    ((⟨"field_two", tyU32, some "Field2", false⟩ : FieldAttrs).rename
        = some "Field2" →
      labelOf ⟨"field_two", tyU32, some "Field2", false⟩ = "Field2")
    ∧ ((⟨"field_two", tyU32, some "Field2", false⟩ : FieldAttrs).rename
        = none →
      labelOf ⟨"field_two", tyU32, some "Field2", false⟩
        = toPascalCase "field_two")
    ∧ toPascalCase
        (String.mk (snakeJoin [['i', 's'], ['v', 'e', 'r', 'i', 'f', 'i', 'e', 'd']]))
        = String.mk (List.flatten
            ([['i', 's'], ['v', 'e', 'r', 'i', 'f', 'i', 'e', 'd']].map capitalizeWord))
    ∧ toPascalCase "is_verified" = "IsVerified" :=
  claim_c7_label_derivation ⟨"field_two", tyU32, some "Field2", false⟩
    "Field2" [['i', 's'], ['v', 'e', 'r', 'i', 'f', 'i', 'e', 'd']]
    (by decide)

/-- Default derive options (every configurable name left at its default). -/
def defaultOpts : CompanionOpts := {}

/-- C9. Capability binding condition: the `EnumCompanionTrait` impl is
emitted exactly when the three configured operation names equal their
defaults `value`, `update`, `fields`; when emitted, its four methods agree
with the inherent `value`, `update`, `fields`, `as_values` operations. -/
theorem claim_c9_trait_binding {α : Type} [Inhabited α] (o : CompanionOpts)
    (fields : List FieldAttrs) (state : List α) (i : Nat) (v : Nat × α) :
    ((traitImpl α o fields).isSome = true ↔
      (o.value_fn = default_value_fn ∧ o.update_fn = default_update_fn
        ∧ o.fields_fn = default_fields_fn))
    ∧ (traitImpl α o fields).elim True (fun m =>
        m.tvalue state i = valueFn state i
        ∧ m.tupdate state v = updateFn state v
        ∧ m.tfields = activeIdx fields
        ∧ m.tas_values state = asValues fields state) := by
  unfold traitImpl
  by_cases hc : o.value_fn = "value" ∧ o.update_fn = "update"
      ∧ o.fields_fn = "fields"
  · rw [if_pos hc]
    exact ⟨iff_of_true rfl hc, rfl, rfl, rfl, rfl⟩
  · rw [if_neg hc]
    exact ⟨iff_of_false (by simp) hc, trivial⟩

/-- Witness for C9 with the default options on the example schema. -/
theorem claim_c9_trait_binding_witness :
    ((traitImpl Nat defaultOpts exampleFields).isSome = true ↔
      (defaultOpts.value_fn = default_value_fn
        ∧ defaultOpts.update_fn = default_update_fn
        ∧ defaultOpts.fields_fn = default_fields_fn))
    ∧ (traitImpl Nat defaultOpts exampleFields).elim True (fun m =>
        m.tvalue [10, 20, 30, 40, 50, 60] 1
          = valueFn [10, 20, 30, 40, 50, 60] 1
        ∧ m.tupdate [10, 20, 30, 40, 50, 60] (1, 99)
          = updateFn [10, 20, 30, 40, 50, 60] (1, 99)
        ∧ m.tfields = activeIdx exampleFields
        ∧ m.tas_values [10, 20, 30, 40, 50, 60]
          = asValues exampleFields [10, 20, 30, 40, 50, 60]) :=
  claim_c9_trait_binding defaultOpts exampleFields [10, 20, 30, 40, 50, 60]
    1 (1, 99)

/-- C10. First-match resolution: `from_str` returns the variant of the
first non-skipped field in declaration order (the variant list is strictly
increasing in declaration order) whose key set contains the input, and the
fallback error otherwise; in the collision schema, the key `"b"` (shared by
field 0's rename and field 1's identifier) deterministically resolves to the
earlier-declared field 0, while field 1 stays reachable through `"B"`. -/
theorem claim_c10_first_match (fields : List FieldAttrs) (s : String) :
    (fromStr fields s =
      match (activeIdx fields).find?
          (fun j => decide (s ∈ keysOf (fields.getD j default))) with
      | some j => .ok j
      | none => .error ("Invalid field name: " ++ s))
    ∧ (activeIdx fields).Pairwise (· < ·)
    ∧ fromStr collisionFields "b" = .ok 0
    ∧ fromStr collisionFields "B" = .ok 1 :=
  ⟨fromStr_eq_find fields s, pairwise_activeIdx fields, rfl, rfl⟩

/-- Witness for C10 at the example schema and the key `Field2`. -/
theorem claim_c10_first_match_witness :
    (fromStr exampleFields "Field2" =
      match (activeIdx exampleFields).find?
          (fun j => decide ("Field2" ∈ keysOf (exampleFields.getD j default))) with
      | some j => .ok j
      | none => .error ("Invalid field name: " ++ "Field2"))
    ∧ (activeIdx exampleFields).Pairwise (· < ·)
    ∧ fromStr collisionFields "b" = .ok 0
    ∧ fromStr collisionFields "B" = .ok 1 :=
  claim_c10_first_match exampleFields "Field2"

end EnumCompanion
